import Mathlib

set_option maxRecDepth 8192

/-!
Verification of the Abundant incremental backup engine.

The development shallowly embeds the version-chain core of the program:
`version.py` (resolution, snapshot copying, migration, removal),
`archive.py` (chain loading/validation, retention enforcement) and
`hash.py` (the CRC32 wrapper).  A version's physical directory is
modelled as an association list from relative paths to file contents;
a chain is the list of versions sorted by creation time, the base
version first, exactly as `ArchiveAgent.versions` after `load_versions`.
Positions in that list play the role of `previous_version` /
`next_version` neighbour lookups, which the source computes
positionally from the sorted list.
-/

namespace Abundant

/-- Bytes of one file, as read from disk. -/
abbrev Content := List Nat

/-- One version of an archive: the persisted record (`UUID`,
`TimeOfCreation`, `IsBaseVersion`) together with the physical directory
contents, modelled as an association list from relative path to file
bytes. -/
structure Version where
  uuid : Nat
  created : Nat
  isBase : Bool
  store : List (String × Content)
deriving Repr, DecidableEq

/-- `VersionAgent.has_file`: the version's directory contains a regular
file at this relative path. -/
def Version.hasFile (v : Version) (p : String) : Bool :=
  (List.lookup p v.store).isSome

/-- The relative paths physically present in a version's directory. -/
def Version.keys (v : Version) : List String :=
  v.store.map Prod.fst

/-- `has_file` looked up through a chain position. -/
def hasFileIdx (ch : List Version) (j : Nat) (p : String) : Bool :=
  match ch[j]? with
  | some v => v.hasFile p
  | none => false

/-- The stored bytes of path `p` inside the version at chain position
`j`, when present. -/
def contentAt (ch : List Version) (j : Nat) (p : String) : Option Content :=
  match ch[j]? with
  | some v => List.lookup p v.store
  | none => none

/-- Position of the last version in the list that stores `p`, if any.
This is a specification helper used to characterise the forward walk
performed by `_get_last_appearance_of_file`. -/
def lastOcc? : List Version → String → Option Nat
  | [], _ => none
  | v :: rest, p =>
    match lastOcc? rest p with
    | some k => some (k + 1)
    | none => if v.hasFile p then some 0 else none

/-- The forward walk of `VersionAgent._get_last_appearance_of_file`:
starting at absolute position `j` with candidate `cand`, scan the
remaining versions in order and remember the last position whose
directory contains `p`. -/
def lastAppAux (p : String) : List Version → Nat → Nat → Nat
  | [], _, cand => cand
  | v :: rest, j, cand => lastAppAux p rest (j + 1) (if v.hasFile p then j else cand)

/-- `VersionAgent._get_last_appearance_of_file`, called on the version at
position `j`: walk `next_version` links to the end of the chain and
return the position of the last version that stores `p` (the walk is
*not* bounded by the version the effective view is being computed for).
Falls back to `j` when nothing at or after `j` stores `p`; the source
asserts that the version at `j` itself stores `p`. -/
def lastApp (ch : List Version) (j : Nat) (p : String) : Nat :=
  lastAppAux p (ch.drop j) j j

/-- First half of the `VersionAgent.files` generator: for every path in
the base version's directory, yield it paired with the position of its
last appearance, walking forward from the base. -/
def passA (ch : List Version) : List (String × Nat) :=
  match ch[0]? with
  | some base => base.store.map (fun pc => (pc.1, lastApp ch 0 pc.1))
  | none => []

/-- Body of the second half of `VersionAgent.files` for one value of
`version_in_work` (chain position `j`): paths of that version's
directory that are absent from the base are yielded exactly when the
last appearance (walking to the end of the chain) is `j` itself. -/
def passBAt (ch : List Version) (j : Nat) : List (String × Nat) :=
  match ch[j]?, ch[0]? with
  | some v, some base =>
    v.store.filterMap (fun pc =>
      if base.hasFile pc.1 then none
      else if lastApp ch j pc.1 == j then some (pc.1, j) else none)
  | _, _ => []

/-- Second half of `VersionAgent.files`: `version_in_work` starts at the
queried version (position `i`) and walks `previous_version` links down
to, but excluding, the base at position 0. -/
def passB (ch : List Version) (i : Nat) : List (String × Nat) :=
  ((List.range' 1 i).reverse).flatMap (passBAt ch)

/-- The `VersionAgent.files` generator (the effective view of the
version at position `i`): each yielded pair is a relative path together
with the chain position whose stored copy the generator points at (the
source yields the absolute path inside that version's directory). -/
def files (ch : List Version) (i : Nat) : List (String × Nat) :=
  passA ch ++ passB ch i

/-- The `VersionAgent.exact_files` generator: the version's own
directory listing, no chain traversal. -/
def exactFiles (v : Version) : List (String × Content) :=
  v.store

end Abundant

namespace Abundant

/-! CRC32, from `hash.py`.  `binascii.crc32(data, value)` is the
standard zlib CRC-32: the running value is inverted, each byte is folded
through the polynomial table, and the result is inverted again. -/

/-- The reversed CRC-32 polynomial used by `binascii.crc32`. -/
def crc32Poly : Nat := 0xEDB88320

/-- One bit step of the byte table computation. -/
def crc32Round (ch : Nat) : Nat :=
  if ch % 2 == 1 then (ch / 2) ^^^ crc32Poly else ch / 2

/-- The CRC-32 table entry for one byte: eight polynomial rounds. -/
def crc32Table (b : Nat) : Nat :=
  crc32Round (crc32Round (crc32Round (crc32Round
    (crc32Round (crc32Round (crc32Round (crc32Round b)))))))

/-- Fold one byte into the (pre-inverted) running CRC state. -/
def crc32Step (ch : Nat) (b : Nat) : Nat :=
  (ch / 256) ^^^ crc32Table ((ch ^^^ b) % 256)

/-- `binascii.crc32(data, value)`: invert the incoming value, fold every
byte, invert the result. -/
def crc32 (data : List Nat) (value : Nat) : Nat :=
  (data.foldl crc32Step (value ^^^ 0xFFFFFFFF)) ^^^ 0xFFFFFFFF

/-- The initial state of `CRC32HashlibWrapper`:
`binascii.crc32(b'', 0)`. -/
def crc32WrapperInit : Nat := crc32 [] 0

/-- `CRC32HashlibWrapper.update`, iterated over a list of chunks fed in
order: each call replaces the state by `binascii.crc32(chunk, state)`. -/
def crc32WrapperUpdates (chunks : List (List Nat)) : Nat :=
  chunks.foldl (fun st chunk => crc32 chunk st) crc32WrapperInit

/-- Uppercase hexadecimal digit. -/
def hexUpperChar (d : Nat) : Char :=
  if d < 10 then Char.ofNat (48 + d) else Char.ofNat (55 + d)

/-- Hexadecimal digits of `n`, most significant first (empty for 0). -/
def hexChars : Nat → List Char
  | 0 => []
  | n + 1 => hexChars ((n + 1) / 16) ++ [hexUpperChar ((n + 1) % 16)]
decreasing_by exact Nat.div_lt_self (Nat.succ_pos n) (by omega)

/-- `CRC32HashlibWrapper.hexdigest`, i.e. `'%08X' % value`: the
uppercase hexadecimal form, left-padded with zeros to (at least) eight
digits. -/
def hexdigest (value : Nat) : String :=
  String.mk (List.replicate (8 - (hexChars value).length) '0' ++ hexChars value)

/-- Cut a byte string into consecutive chunks of `n` bytes, as the
`file.read(2048)` loop of `HashAgent.hash` does (the final chunk may be
shorter). -/
def chunksOf (n : Nat) (l : List Nat) : List (List Nat) :=
  match l with
  | [] => []
  | x :: xs => (x :: xs.take (n - 1)) :: chunksOf n (xs.drop (n - 1))
termination_by l.length
decreasing_by simp [List.length_drop]; omega

/-- `HashAgent.hash` for algorithm `'crc32'`: feed the file's bytes to
the wrapper in 2048-byte chunks and return the hex digest. -/
def hashAgentHashCrc32 (content : List Nat) : String :=
  hexdigest (crc32WrapperUpdates (chunksOf 2048 content))

end Abundant

namespace Abundant

/-! The archive layer, from `archive.py` and the mutating half of
`version.py`.  Persisted state is reduced to the version list plus the
counters that feed fresh creation timestamps (`time.time()`, strictly
increasing across operations) and fresh UUIDs (`uuid.uuid4()` retried
until unused). -/

/-- Insert a version into a list sorted by creation time, before the
first strictly later element but after earlier-or-equal ones. -/
def insertByCreated (v : Version) : List Version → List Version
  | [] => [v]
  | w :: ws => if v.created ≤ w.created then v :: w :: ws else w :: insertByCreated v ws

/-- The sort performed by `ArchiveAgent.load_versions`:
`self.versions.sort(key=lambda x: x.time_of_creation)`, modelled as a
stable insertion sort (Python's sort is stable; creation-time ties are
the spec's declared-ambiguous case and never arise in reachable
states). -/
def sortByCreated : List Version → List Version
  | [] => []
  | v :: rest => insertByCreated v (sortByCreated rest)

/-- The loop of `ArchiveAgent.validate_versions`.  `found` is
`found_base_version`; `prev` is `previous_version`, which the source
never reassigns inside the loop, so the ordering comparison only ever
sees its initial value `None` and is dead code. -/
def validateVersionsGo : List Version → Bool → Option Version → Bool
  | [], _, _ => true
  | v :: rest, found, prev =>
    if v.isBase && found then false
    else
      match prev with
      | some pv =>
        if v.created < pv.created then false
        else validateVersionsGo rest (found || v.isBase) prev
      | none => validateVersionsGo rest (found || v.isBase) prev

/-- `ArchiveAgent.validate_versions`. -/
def validateVersions (vs : List Version) : Bool :=
  validateVersionsGo vs false none

/-- Failures surfaced as Python exceptions by the embedded code paths. -/
inductive Err where
  | permissionError
  | indexError
  | nonTermination
deriving Repr, DecidableEq

/-- `ArchiveAgent.load_versions`: sort the persisted records by creation
time, call `validate_versions` — whose boolean result the caller
discards — and finish without any error path. -/
def loadVersions (records : List Version) : Except Err (List Version) :=
  let vs := sortByCreated records
  let _valid := validateVersions vs
  Except.ok vs

/-- The mutable archive state: the loaded chain plus the clock feeding
`TimeOfCreation` and the supply of fresh UUIDs, with the configured
`max_number_of_versions`. -/
structure ArchState where
  versions : List Version
  clock : Nat
  nextUuid : Nat
  maxVersions : Nat
deriving Repr, DecidableEq

/-- `VersionAgent.remove` for the version at chain position `i`
(`base_version_pardon` is the internal compaction override): a base
version without the pardon raises `PermissionError` before anything is
deleted; otherwise the record and directory are removed and the chain
reloaded. -/
def removeVersion (st : ArchState) (i : Nat) (pardon : Bool) : Except Err ArchState :=
  match st.versions[i]? with
  | none => Except.error Err.indexError
  | some v =>
    if !pardon && v.isBase then Except.error Err.permissionError
    else Except.ok { st with versions := sortByCreated (st.versions.eraseIdx i) }

/-- `VersionAgent.migrate_to_next_version` invoked on the chain head
(the only call sites migrate `ArchiveAgent.base_version`): every file of
the head absent from the next version is moved into it, the base flag is
transferred when the head carried it, and the head is removed with the
pardon. -/
def migrateToNextVersion : List Version → List Version
  | b :: n :: rest =>
    let moved := b.store.filter (fun pc => !(n.hasFile pc.1))
    { n with store := n.store ++ moved, isBase := n.isBase || b.isBase } :: rest
  | l => l

/-- `ArchiveAgent.migrate_oldest_version_to_base`: the leading assert
evaluates `versions[0]`, raising `IndexError` on an empty chain; with a
single version the source only logs a warning and returns; otherwise the
base migrates into its successor and the chain is reloaded. -/
def migrateOldestVersionToBase (st : ArchState) : Except Err ArchState :=
  match st.versions with
  | [] => Except.error Err.indexError
  | [_] => Except.ok st
  | _ :: _ :: _ =>
    Except.ok { st with versions := sortByCreated (migrateToNextVersion st.versions) }

/-- The walk of `VersionAgent._get_previous_version_of_file` for the
version at position `j + 1`: try position `j`, then keep following
`previous_version` links; the base (position 0) has no previous.  The
optional `from_version` / `until_version` bounds are `None` at the only
call site and are omitted. -/
def prevVersionAux (ch : List Version) (p : String) : Nat → Option Nat
  | 0 => none
  | j + 1 => if hasFileIdx ch j p then some j else prevVersionAux ch p j

/-- `VersionAgent._get_previous_version_of_file` for the version at
position `i`: the nearest strictly older version whose directory stores
`p`. -/
def prevVersionOfFile (ch : List Version) (i : Nat) (p : String) : Option Nat :=
  prevVersionAux ch p i

/-- `is_base_version` of the version at chain position `i`. -/
def isBaseIdx (ch : List Version) (i : Nat) : Bool :=
  match ch[i]? with
  | some v => v.isBase
  | none => false

/-- Stored bytes at position `j`, defaulted; the source only reads the
file after the walk has checked it exists. -/
def contentAtD (ch : List Version) (j : Nat) (p : String) : Content :=
  (contentAt ch j p).getD []

/-- `VersionAgent.copy_files` for the version at chain position `i`:
walk the source tree and copy each file unless this is a non-base
version, a previous version of the file exists, and that previous
version's stored copy has the same digest as the live source file.
`hash` is the archive's digest capability (`HashAgent.hash` on file
contents). -/
def copyFiles (ch : List Version) (i : Nat) (hash : Content → Nat)
    (src : List (String × Content)) : List (String × Content) :=
  src.filter (fun pd =>
    match prevVersionOfFile ch i pd.1 with
    | some j => isBaseIdx ch i || !(hash (contentAtD ch j pd.1) == hash pd.2)
    | none => true)

/-- The module-level `create_version(is_base_version, archive_agent)`:
append a record carrying a fresh UUID and the current wall-clock, reload
(sort) the chain, then let `copy_files` populate the new version's
directory at its position in the reloaded chain. -/
def createVersionRecord (isBase : Bool) (hash : Content → Nat)
    (src : List (String × Content)) (st : ArchState) : ArchState :=
  let newv : Version := { uuid := st.nextUuid, created := st.clock, isBase := isBase, store := [] }
  let vs := sortByCreated (st.versions ++ [newv])
  let i := vs.findIdx (fun v => v.uuid == newv.uuid)
  let filled :=
    match vs[i]? with
    | some v => vs.set i { v with store := copyFiles vs i hash src }
    | none => vs
  { st with versions := filled, clock := st.clock + 1, nextUuid := st.nextUuid + 1 }

/-- `ArchiveAgent.create_base`: reading `self.base_version` raises
`IndexError` on an empty chain, and on a nonempty chain the property is
never `None`, so the source only logs a duplicate-base warning; the
branch that would create a base version is unreachable. -/
def archiveCreateBase (st : ArchState) : Except Err ArchState :=
  match st.versions with
  | [] => Except.error Err.indexError
  | _ :: _ => Except.ok st

/-- The retention loop of `ArchiveAgent.create_version`:
`while len(self.versions) >= self.max_number_of_versions:
migrate_oldest_version_to_base()`.  With a single version the body is a
warning-only no-op, so a still-true guard loops forever; that spin is
surfaced as `Err.nonTermination`. -/
def migrateLoop (st : ArchState) : Except Err ArchState :=
  if st.maxVersions ≤ st.versions.length then
    match _h : st.versions with
    | [] => Except.error Err.indexError
    | [_] => Except.error Err.nonTermination
    | _ :: _ :: _ => migrateLoop { st with versions := sortByCreated (migrateToNextVersion st.versions) }
  else Except.ok st
termination_by st.versions.length
decreasing_by
  have hins : ∀ (v : Version) (l : List Version),
      (insertByCreated v l).length = l.length + 1 := by
    intro v l
    induction l with
    | nil => rfl
    | cons w ws ih => by_cases h : v.created ≤ w.created <;> simp [insertByCreated, h, ih]
  have hsort : ∀ l : List Version, (sortByCreated l).length = l.length := by
    intro l
    induction l with
    | nil => rfl
    | cons v rest ih => simp [sortByCreated, hins, ih]
  simp [hsort, migrateToNextVersion, _h]

/-- `ArchiveAgent.create_version`: with `max_number_of_versions == 1`
the current base is removed (without the pardon) and `create_base`
re-runs; otherwise retention migrates until the chain is below the
maximum and a non-base version is created. -/
def archiveCreateVersion (hash : Content → Nat) (src : List (String × Content))
    (st : ArchState) : Except Err ArchState :=
  if st.maxVersions == 1 then
    match st.versions with
    | [] => Except.error Err.indexError
    | _ :: _ =>
      match removeVersion st 0 false with
      | Except.error e => Except.error e
      | Except.ok st1 => archiveCreateBase st1
  else
    match migrateLoop st with
    | Except.error e => Except.error e
    | Except.ok st1 =>
      match st1.versions with
      | [] => Except.error Err.indexError
      | _ :: _ => Except.ok (createVersionRecord false hash src st1)

/-- One archive operation reachable from the user interface: create a
snapshot of the given source tree, remove the version at a chain
position, or single-step migrate. -/
inductive Op where
  | createVersion (src : List (String × Content))
  | removeVersion (i : Nat)
  | migrateOldest
deriving Repr

/-- Run one operation.  An operation that raises does so before mutating
the chain (each raise site precedes the first record change), so the
state is kept; the retention loop's divergence never returns at all and
likewise yields no new observable state. -/
def applyOp (hash : Content → Nat) (st : ArchState) : Op → ArchState
  | Op.createVersion src =>
    match archiveCreateVersion hash src st with
    | Except.ok st' => st'
    | Except.error _ => st
  | Op.removeVersion i =>
    match removeVersion st i false with
    | Except.ok st' => st'
    | Except.error _ => st
  | Op.migrateOldest =>
    match migrateOldestVersionToBase st with
    | Except.ok st' => st'
    | Except.error _ => st

/-- Run a sequence of operations. -/
def runOps (hash : Content → Nat) (st : ArchState) (ops : List Op) : ArchState :=
  ops.foldl (applyOp hash) st

/-- A freshly created archive holding exactly one base version whose
directory is a full snapshot `store0`. -/
def initArchive (maxVersions t0 u0 : Nat) (store0 : List (String × Content)) : ArchState :=
  { versions := [{ uuid := u0, created := t0, isBase := true, store := store0 }],
    clock := t0 + 1, nextUuid := u0 + 1, maxVersions := maxVersions }

/-- The chain invariant maintained by the archive layer: the chain is
nonempty, its head is the only version flagged as base, creation times
strictly increase along the chain, and the clock and UUID supplies are
strictly ahead of every record. -/
def WF (st : ArchState) : Prop :=
  (match st.versions with
   | [] => False
   | x :: tail => x.isBase = true ∧ ∀ v ∈ tail, v.isBase = false) ∧
  List.Pairwise (fun a b => a.created < b.created) st.versions ∧
  (∀ v ∈ st.versions, v.created < st.clock) ∧
  (∀ v ∈ st.versions, v.uuid < st.nextUuid)

end Abundant

namespace Abundant

/-! Theorems.  First the CRC32 wrapper. -/

theorem xor_xor_cancel (x m : Nat) : (x ^^^ m) ^^^ m = x := by
  rw [Nat.xor_assoc, Nat.xor_self, Nat.xor_zero]

/-- Chunk composition of `binascii.crc32`: feeding `b` with the checksum
of `a` as the starting value continues the checksum of `a ++ b`. -/
theorem crc32_append (a b : List Nat) (v : Nat) :
    crc32 (a ++ b) v = crc32 b (crc32 a v) := by
  simp [crc32, List.foldl_append, xor_xor_cancel]

theorem crc32_nil (v : Nat) : crc32 [] v = v := by
  simp [crc32, xor_xor_cancel]

theorem crc32WrapperInit_eq : crc32WrapperInit = 0 := by
  simp [crc32WrapperInit, crc32_nil]

theorem crc32_foldl_eq (chunks : List (List Nat)) :
    ∀ v : Nat, chunks.foldl (fun st chunk => crc32 chunk st) v = crc32 chunks.flatten v := by
  induction chunks with
  | nil => intro v; simp [crc32_nil]
  | cons a rest ih =>
    intro v
    rw [List.foldl_cons, ih, List.flatten_cons, crc32_append]

theorem flatten_chunksOf (n : Nat) (l : List Nat) : (chunksOf n l).flatten = l := by
  induction l using chunksOf.induct n with
  | case1 => simp [chunksOf]
  | case2 x xs ih =>
    rw [chunksOf]
    simp only [List.flatten_cons, List.cons_append, ih]
    rw [List.take_append_drop]

end Abundant

namespace Abundant

/-- C10: feeding any partition of a byte string chunk-by-chunk to
`CRC32HashlibWrapper.update` and then `hexdigest` gives the same
eight-hex-digit value as feeding it whole in one update, and
`HashAgent.hash` with algorithm `'crc32'` depends only on the file's
bytes, not on the 2048-byte read chunking. -/
theorem crc32_chunking_independent (chunks : List (List Nat)) (content : List Nat) :
    hexdigest (crc32WrapperUpdates chunks) = hexdigest (crc32WrapperUpdates [chunks.flatten]) ∧
    hashAgentHashCrc32 content = hexdigest (crc32 content 0) := by
  constructor
  · rw [crc32WrapperUpdates, crc32WrapperUpdates, crc32_foldl_eq, crc32_foldl_eq]
    simp
  · rw [hashAgentHashCrc32, crc32WrapperUpdates, crc32_foldl_eq, flatten_chunksOf,
      crc32WrapperInit_eq]

end Abundant

namespace Abundant

/-- C2, counterexample: in a two-version chain whose base stores `a`
and whose second version stores `a` again, the effective view of the
*base* pairs `a` with the copy of chain position 1 — a version strictly
newer than the queried version — because
`_get_last_appearance_of_file` walks to the end of the whole chain
instead of stopping at the queried version. -/
theorem files_resolves_beyond_query_version :
    ¬ (∀ po ∈ files
        [{ uuid := 0, created := 0, isBase := true, store := [("a", [1])] },
         { uuid := 1, created := 1, isBase := false, store := [("a", [2])] }] 0,
        po.2 ≤ 0) := by decide

/-- C3, counterexample: path `x` is absent from the base and introduced
at chain position 1, so the claim demands exactly one entry for `x` in
the effective view of version 1; but because position 2 stores `x`
again, the view of version 1 contains no entry for `x` at all. -/
theorem files_misses_reintroduced_path :
    ¬ ((files
        [{ uuid := 0, created := 0, isBase := true, store := [] },
         { uuid := 1, created := 1, isBase := false, store := [("x", [1])] },
         { uuid := 2, created := 2, isBase := false, store := [("x", [2])] }] 1).countP
       (fun e => e.1 == "x") = 1) := by decide

/-- C6: with `max_number_of_versions == 1`, `ArchiveAgent.create_version`
calls `self.base_version.remove()` without the internal
`base_version_pardon` override, so the removal guard raises
`PermissionError` and the operation never completes; the fresh base
snapshot promised by the spec is never taken. -/
theorem create_version_max1_raises :
    archiveCreateVersion (fun _ => 0) [("a", [5])] (initArchive 1 0 0 [("a", [1])]) =
      Except.error Err.permissionError := rfl

/-- C7: loading never fails on a corrupt chain.  With two base versions
`validate_versions` does return `false`, but `load_versions` discards
the result and completes; with zero base versions, or with a base that
is not the oldest, `validate_versions` even returns `true`, because the
missing-base case is never checked and the ordering comparison is dead
code (`previous_version` is never reassigned). -/
theorem load_versions_silent_on_corruption :
    loadVersions
        [{ uuid := 0, created := 0, isBase := true, store := [] },
         { uuid := 1, created := 1, isBase := true, store := [] }] =
      Except.ok
        [{ uuid := 0, created := 0, isBase := true, store := [] },
         { uuid := 1, created := 1, isBase := true, store := [] }] ∧
    validateVersions
        [{ uuid := 0, created := 0, isBase := true, store := [] },
         { uuid := 1, created := 1, isBase := true, store := [] }] = false ∧
    loadVersions
        [{ uuid := 0, created := 0, isBase := false, store := [] },
         { uuid := 1, created := 1, isBase := false, store := [] }] =
      Except.ok
        [{ uuid := 0, created := 0, isBase := false, store := [] },
         { uuid := 1, created := 1, isBase := false, store := [] }] ∧
    validateVersions
        [{ uuid := 0, created := 0, isBase := false, store := [] },
         { uuid := 1, created := 1, isBase := false, store := [] }] = true ∧
    loadVersions
        [{ uuid := 0, created := 0, isBase := false, store := [] },
         { uuid := 1, created := 1, isBase := true, store := [] }] =
      Except.ok
        [{ uuid := 0, created := 0, isBase := false, store := [] },
         { uuid := 1, created := 1, isBase := true, store := [] }] ∧
    validateVersions
        [{ uuid := 0, created := 0, isBase := false, store := [] },
         { uuid := 1, created := 1, isBase := true, store := [] }] = true :=
  ⟨rfl, rfl, rfl, rfl, rfl, rfl⟩

/-- C8, counterexample: single-step migration on a one-version chain
returns normally (after a logged warning) with the chain untouched; no
`InvalidState` error is raised, contradicting the claim's error
requirement. -/
theorem migrate_single_version_returns_ok :
    (migrateOldestVersionToBase (initArchive 3 0 0 [("a", [1])])).isOk = true ∧
    migrateOldestVersionToBase (initArchive 3 0 0 [("a", [1])]) =
      Except.ok (initArchive 3 0 0 [("a", [1])]) :=
  ⟨rfl, rfl⟩

/-- C8, amended: invoking single-step migration on a chain with exactly
one version performs no migration and leaves the state unchanged, but
completes without error — the source only logs a warning. -/
theorem migrate_single_version_noop (st : ArchState) (v : Version)
    (h : st.versions = [v]) :
    migrateOldestVersionToBase st = Except.ok st := by
  rw [migrateOldestVersionToBase, h]

theorem migrate_single_version_noop_witness :
    migrateOldestVersionToBase (initArchive 2 0 0 []) =
      Except.ok (initArchive 2 0 0 []) :=
  migrate_single_version_noop (initArchive 2 0 0 []) _ rfl

/-- C9: `VersionAgent.remove` on the base version without the internal
`base_version_pardon` override raises `PermissionError` before the
record or directory is touched, while the same removal with the
override proceeds and deletes the version. -/
theorem remove_base_guard (st : ArchState) (v : Version)
    (h0 : st.versions[0]? = some v) (hb : v.isBase = true) :
    removeVersion st 0 false = Except.error Err.permissionError ∧
    removeVersion st 0 true =
      Except.ok { st with versions := sortByCreated (st.versions.eraseIdx 0) } := by
  rw [removeVersion, removeVersion, h0]
  simp [hb]

theorem remove_base_guard_witness :
    removeVersion (initArchive 3 0 0 []) 0 false = Except.error Err.permissionError ∧
    removeVersion (initArchive 3 0 0 []) 0 true =
      Except.ok { initArchive 3 0 0 [] with
                  versions := sortByCreated ((initArchive 3 0 0 []).versions.eraseIdx 0) } :=
  remove_base_guard (initArchive 3 0 0 []) _ rfl rfl

end Abundant

namespace Abundant

/-! Association-list helpers shared by the resolution and snapshot
theorems. -/

theorem lookup_isSome_iff (p : String) (l : List (String × Content)) :
    (List.lookup p l).isSome = true ↔ p ∈ l.map Prod.fst := by
  induction l with
  | nil => simp
  | cons hd tl ih =>
    by_cases h : p = hd.1
    · simp [List.lookup, h]
    · have hbeq : (p == hd.1) = false := beq_false_of_ne h
      simp [List.lookup, hbeq, ih, h]

theorem hasFile_iff_mem_keys (v : Version) (p : String) :
    v.hasFile p = true ↔ p ∈ v.keys :=
  lookup_isSome_iff p v.store

theorem lookup_append_some (p : String) (l1 l2 : List (String × Content)) (d : Content)
    (h : List.lookup p l1 = some d) :
    List.lookup p (l1 ++ l2) = some d := by
  induction l1 with
  | nil => simp [List.lookup] at h
  | cons hd tl ih =>
    by_cases hb : (p == hd.1)
    · rw [List.lookup] at h
      simp only [hb, if_pos rfl] at h
      simp [List.lookup, hb, h]
    · rw [List.lookup] at h
      simp only [hb] at h
      simp only [List.cons_append, List.lookup, hb]
      exact ih h

theorem lookup_append_none (p : String) (l1 l2 : List (String × Content))
    (h : List.lookup p l1 = none) :
    List.lookup p (l1 ++ l2) = List.lookup p l2 := by
  induction l1 with
  | nil => simp
  | cons hd tl ih =>
    rw [List.lookup] at h
    by_cases hb : (p == hd.1)
    · simp [hb] at h
    · simp only [hb] at h
      simp only [List.cons_append, List.lookup, hb]
      exact ih h

theorem lookup_filter_key_pos (p : String) (q : String → Bool) (l : List (String × Content))
    (hq : q p = true) :
    List.lookup p (l.filter (fun pc => q pc.1)) = List.lookup p l := by
  induction l with
  | nil => simp
  | cons hd tl ih =>
    by_cases hb : (p == hd.1)
    · have hp : p = hd.1 := eq_of_beq hb
      have : q hd.1 = true := hp ▸ hq
      simp [List.filter_cons, this, List.lookup, hb]
    · by_cases hk : q hd.1 = true
      · simp only [List.filter_cons, hk, if_pos rfl]
        simp only [List.lookup, hb]
        exact ih
      · simp only [List.filter_cons, hk, Bool.false_eq_true, if_false]
        rw [ih]
        simp [List.lookup, hb]

theorem lookup_filter_key_neg (p : String) (q : String → Bool) (l : List (String × Content))
    (hq : q p = false) :
    List.lookup p (l.filter (fun pc => q pc.1)) = none := by
  induction l with
  | nil => simp
  | cons hd tl ih =>
    by_cases hb : (p == hd.1)
    · have hp : p = hd.1 := eq_of_beq hb
      have : q hd.1 = false := hp ▸ hq
      simp [List.filter_cons, this, ih]
    · by_cases hk : q hd.1 = true
      · simp only [List.filter_cons, hk, if_pos rfl]
        simp only [List.lookup, hb]
        exact ih
      · simp only [List.filter_cons, hk, Bool.false_eq_true, if_false]
        exact ih

end Abundant

namespace Abundant

/-! The backward walk used by the snapshot writer. -/

theorem prevVersionAux_some (ch : List Version) (p : String) :
    ∀ i j, prevVersionAux ch p i = some j →
      j < i ∧ hasFileIdx ch j p = true ∧ ∀ k, j < k → k < i → hasFileIdx ch k p = false := by
  intro i
  induction i with
  | zero => intro j h; simp [prevVersionAux] at h
  | succ m ih =>
    intro j h
    rw [prevVersionAux] at h
    by_cases hm : hasFileIdx ch m p = true
    · rw [if_pos hm] at h
      cases h
      exact ⟨Nat.lt_succ_self m, hm, fun k hk1 hk2 => absurd hk2 (Nat.not_lt.mpr hk1)⟩
    · rw [if_neg hm] at h
      rcases ih j h with ⟨hj, hhas, hmax⟩
      refine ⟨Nat.lt_succ_of_lt hj, hhas, fun k hk1 hk2 => ?_⟩
      rcases Nat.lt_succ_iff_lt_or_eq.mp hk2 with hk | hk
      · exact hmax k hk1 hk
      · subst hk
        exact Bool.of_not_eq_true hm

theorem prevVersionAux_none (ch : List Version) (p : String) :
    ∀ i, prevVersionAux ch p i = none → ∀ k, k < i → hasFileIdx ch k p = false := by
  intro i
  induction i with
  | zero => intro _ k hk; exact absurd hk (Nat.not_lt_zero k)
  | succ m ih =>
    intro h k hk
    rw [prevVersionAux] at h
    by_cases hm : hasFileIdx ch m p = true
    · rw [if_pos hm] at h
      cases h
    · rw [if_neg hm] at h
      rcases Nat.lt_succ_iff_lt_or_eq.mp hk with hk' | hk'
      · exact ih h k hk'
      · subst hk'
        exact Bool.of_not_eq_true hm

end Abundant

namespace Abundant

/-- C4: during `copy_files`, a source file whose digest equals that of
its nearest predecessor version's stored copy is skipped (for a
non-base version), while a file with no predecessor copy or a differing
digest is copied; a base version copies unconditionally.  The last two
conjuncts certify that `_get_previous_version_of_file` indeed returns
the nearest strictly older version storing the path. -/
theorem copy_files_dedup (ch : List Version) (i : Nat) (hash : Content → Nat)
    (src : List (String × Content)) (p : String) (d : Content)
    (hmem : (p, d) ∈ src) :
    ((isBaseIdx ch i = true ∨ prevVersionOfFile ch i p = none) →
      (p, d) ∈ copyFiles ch i hash src) ∧
    (∀ j, prevVersionOfFile ch i p = some j →
      ((p, d) ∈ copyFiles ch i hash src ↔
        (isBaseIdx ch i = true ∨ ¬ hash (contentAtD ch j p) = hash d))) ∧
    (∀ j, prevVersionOfFile ch i p = some j →
      j < i ∧ hasFileIdx ch j p = true ∧ ∀ k, j < k → k < i → hasFileIdx ch k p = false) ∧
    (prevVersionOfFile ch i p = none → ∀ k, k < i → hasFileIdx ch k p = false) := by
  refine ⟨?_, ?_, ?_, ?_⟩
  · intro h
    rw [copyFiles, List.mem_filter]
    refine ⟨hmem, ?_⟩
    rcases h with h | h
    · cases hp : prevVersionOfFile ch i p with
      | none => simp only [hp]
      | some j =>
        simp only [hp]
        simp [h]
    · simp only [h]
  · intro j hj
    rw [copyFiles, List.mem_filter]
    simp only [hj]
    simp [hmem, Bool.not_eq_true, beq_eq_false_iff_ne]
  · intro j hj
    exact prevVersionAux_some ch p i j hj
  · intro hn
    exact prevVersionAux_none ch p i hn

/-- Witness for `copy_files_dedup`: a chain whose base stores `a` with
bytes `[1]`, queried while creating the non-base version at position 1
from a source tree where `a` is unchanged and `b` is new: `a` has a
digest-equal predecessor, `b` has none. -/
theorem copy_files_dedup_witness :
    (("b", ([2] : Content)) ∈
      copyFiles
        [{ uuid := 0, created := 0, isBase := true, store := [("a", [1])] },
         { uuid := 1, created := 1, isBase := false, store := [] }] 1
        (fun l => l.length) [("a", [1]), ("b", [2])]) ∧
    ¬ (("a", ([1] : Content)) ∈
      copyFiles
        [{ uuid := 0, created := 0, isBase := true, store := [("a", [1])] },
         { uuid := 1, created := 1, isBase := false, store := [] }] 1
        (fun l => l.length) [("a", [1]), ("b", [2])]) := by
  constructor
  · exact (copy_files_dedup
      [{ uuid := 0, created := 0, isBase := true, store := [("a", [1])] },
       { uuid := 1, created := 1, isBase := false, store := [] }] 1
      (fun l => l.length) [("a", [1]), ("b", [2])] "b" [2] (by decide)).1
      (Or.inr (by decide))
  · intro hmem
    have h := ((copy_files_dedup
      [{ uuid := 0, created := 0, isBase := true, store := [("a", [1])] },
       { uuid := 1, created := 1, isBase := false, store := [] }] 1
      (fun l => l.length) [("a", [1]), ("b", [2])] "a" [1] (by decide)).2.1 0
      (by decide)).mp hmem
    revert h
    decide

end Abundant


namespace Abundant

/-! Characterisation of the forward walk
`_get_last_appearance_of_file`. -/

theorem hasFileIdx_cons_succ (v : Version) (rest : List Version) (m : Nat) (p : String) :
    hasFileIdx (v :: rest) (m + 1) p = hasFileIdx rest m p := by
  simp [hasFileIdx]

theorem hasFileIdx_cons_zero (v : Version) (rest : List Version) (p : String) :
    hasFileIdx (v :: rest) 0 p = v.hasFile p := by
  simp [hasFileIdx]

theorem hasFileIdx_lt_length (ch : List Version) (k : Nat) (p : String)
    (h : hasFileIdx ch k p = true) : k < ch.length := by
  rw [hasFileIdx] at h
  cases hk : ch[k]? with
  | none => rw [hk] at h; cases h
  | some v => exact (List.getElem?_eq_some.mp hk).1

theorem hasFileIdx_drop (ch : List Version) (j k : Nat) (p : String) :
    hasFileIdx (ch.drop j) k p = hasFileIdx ch (j + k) p := by
  simp [hasFileIdx, List.getElem?_drop]

theorem lastOcc?_none_spec (p : String) :
    ∀ vs : List Version, lastOcc? vs p = none → ∀ m, m < vs.length → hasFileIdx vs m p = false := by
  intro vs
  induction vs with
  | nil => intro _ m hm; exact absurd hm (by simp)
  | cons v rest ih =>
    intro h m hm
    rw [lastOcc?] at h
    cases hr : lastOcc? rest p with
    | some k => rw [hr] at h; cases h
    | none =>
      rw [hr] at h
      by_cases hv : v.hasFile p = true
      · rw [if_pos hv] at h; cases h
      · rw [if_neg hv] at h
        match m with
        | 0 => rw [hasFileIdx_cons_zero]; exact Bool.of_not_eq_true hv
        | m' + 1 =>
          rw [hasFileIdx_cons_succ]
          exact ih hr m' (by simpa using hm)

theorem lastOcc?_some_spec (p : String) :
    ∀ (vs : List Version) (k), lastOcc? vs p = some k →
      k < vs.length ∧ hasFileIdx vs k p = true ∧
        ∀ m, k < m → m < vs.length → hasFileIdx vs m p = false := by
  intro vs
  induction vs with
  | nil => intro k h; rw [lastOcc?] at h; cases h
  | cons v rest ih =>
    intro k h
    rw [lastOcc?] at h
    cases hr : lastOcc? rest p with
    | some k' =>
      rw [hr] at h
      cases h
      rcases ih k' hr with ⟨hlt, hhas, hmax⟩
      refine ⟨by simpa using hlt, by rw [hasFileIdx_cons_succ]; exact hhas, ?_⟩
      intro m hm hmlen
      match m with
      | m' + 1 =>
        rw [hasFileIdx_cons_succ]
        exact hmax m' (by omega) (by simpa using hmlen)
    | none =>
      rw [hr] at h
      by_cases hv : v.hasFile p = true
      · rw [if_pos hv] at h
        cases h
        refine ⟨by simp, by rw [hasFileIdx_cons_zero]; exact hv, ?_⟩
        intro m hm hmlen
        match m with
        | m' + 1 =>
          rw [hasFileIdx_cons_succ]
          exact lastOcc?_none_spec p rest hr m' (by simpa using hmlen)
      · rw [if_neg hv] at h; cases h

theorem lastOcc?_isSome_of_has (p : String) (vs : List Version) (k : Nat)
    (hk : hasFileIdx vs k p = true) :
    ∃ L, lastOcc? vs p = some L ∧ k ≤ L := by
  cases hL : lastOcc? vs p with
  | none =>
    have := lastOcc?_none_spec p vs hL k (hasFileIdx_lt_length vs k p hk)
    rw [hk] at this
    cases this
  | some L =>
    refine ⟨L, rfl, ?_⟩
    by_contra hlt
    have := (lastOcc?_some_spec p vs L hL).2.2 k (by omega) (hasFileIdx_lt_length vs k p hk)
    rw [hk] at this
    cases this

theorem lastAppAux_eq (p : String) :
    ∀ (vs : List Version) (j cand : Nat),
      lastAppAux p vs j cand =
        match lastOcc? vs p with
        | some k => j + k
        | none => cand := by
  intro vs
  induction vs with
  | nil => intro j cand; rfl
  | cons v rest ih =>
    intro j cand
    rw [lastAppAux, ih, lastOcc?]
    cases hr : lastOcc? rest p with
    | some k => simp [Nat.add_assoc, Nat.add_comm 1 k]
    | none =>
      by_cases hv : v.hasFile p = true
      · simp [hv]
      · simp [hv, Bool.of_not_eq_true hv]

theorem lastApp_eq (ch : List Version) (j : Nat) (p : String) :
    lastApp ch j p =
      match lastOcc? (ch.drop j) p with
      | some k => j + k
      | none => j := by
  rw [lastApp, lastAppAux_eq]

/-- On a version that stores `p`, the forward walk lands on the last
chain position at or after `j` that stores `p`, and nothing after that
position stores `p`. -/
theorem lastApp_spec (ch : List Version) (j : Nat) (p : String)
    (h : hasFileIdx ch j p = true) :
    j ≤ lastApp ch j p ∧ lastApp ch j p < ch.length ∧
      hasFileIdx ch (lastApp ch j p) p = true ∧
      ∀ m, lastApp ch j p < m → m < ch.length → hasFileIdx ch m p = false := by
  have hj : j < ch.length := hasFileIdx_lt_length ch j p h
  have hdrop : hasFileIdx (ch.drop j) 0 p = true := by
    rw [hasFileIdx_drop]
    simpa using h
  rcases lastOcc?_isSome_of_has p (ch.drop j) 0 hdrop with ⟨L, hL, _⟩
  rcases lastOcc?_some_spec p (ch.drop j) L hL with ⟨hlen, hhas, hmax⟩
  have heq : lastApp ch j p = j + L := by
    rw [lastApp_eq, hL]
  rw [List.length_drop] at hlen
  rw [heq]
  refine ⟨Nat.le_add_right j L, by omega, ?_, ?_⟩
  · rw [← hasFileIdx_drop]
    exact hhas
  · intro m hm hmlen
    have hm' : m - j < (ch.drop j).length := by
      rw [List.length_drop]
      omega
    have hx := hmax (m - j) (by omega) hm'
    rw [hasFileIdx_drop, Nat.add_sub_cancel' (by omega : j ≤ m)] at hx
    exact hx

/-- Anything stored at or after `j` is at or before the walk's result. -/
theorem lastApp_le (ch : List Version) (j : Nat) (p : String)
    (h : hasFileIdx ch j p = true) :
    ∀ m, j ≤ m → hasFileIdx ch m p = true → m ≤ lastApp ch j p := by
  intro m hjm hm
  by_contra hgt
  have := (lastApp_spec ch j p h).2.2.2 m (by omega) (hasFileIdx_lt_length ch m p hm)
  rw [hm] at this
  cases this

/-- When `p` is stored at position `j`, the walk lands exactly on the
global last occurrence of `p` in the chain. -/
theorem lastApp_eq_lastOcc (ch : List Version) (j : Nat) (p : String) (L : Nat)
    (hL : lastOcc? ch p = some L) (hj : hasFileIdx ch j p = true) :
    lastApp ch j p = L := by
  rcases lastOcc?_some_spec p ch L hL with ⟨hlen, hhas, hmax⟩
  have hjL : j ≤ L := by
    by_contra hgt
    have := hmax j (by omega) (hasFileIdx_lt_length ch j p hj)
    rw [hj] at this
    cases this
  have h1 : L ≤ lastApp ch j p := lastApp_le ch j p hj L hjL hhas
  have h2 : lastApp ch j p ≤ L := by
    by_contra hgt
    have := hmax (lastApp ch j p) (by omega) (lastApp_spec ch j p hj).2.1
    rw [(lastApp_spec ch j p hj).2.2.1] at this
    cases this
  omega

end Abundant

namespace Abundant

/-! Membership and counting in the effective view. -/

theorem mem_passA (ch : List Version) (b : Version) (hb : ch[0]? = some b)
    (p : String) (o : Nat) :
    (p, o) ∈ passA ch ↔ p ∈ b.keys ∧ o = lastApp ch 0 p := by
  rw [passA]
  simp only [hb]
  rw [List.mem_map]
  constructor
  · rintro ⟨pc, hpc, heq⟩
    cases heq
    exact ⟨List.mem_map_of_mem Prod.fst hpc, rfl⟩
  · rintro ⟨hp, rfl⟩
    rcases List.mem_map.mp hp with ⟨pc, hpc, rfl⟩
    exact ⟨pc, hpc, rfl⟩

theorem mem_passBAt (ch : List Version) (v b : Version) (j : Nat)
    (hj : ch[j]? = some v) (hb : ch[0]? = some b) (p : String) (o : Nat) :
    (p, o) ∈ passBAt ch j ↔
      o = j ∧ p ∈ v.keys ∧ b.hasFile p = false ∧ lastApp ch j p = j := by
  rw [passBAt]
  simp only [hj, hb]
  rw [List.mem_filterMap]
  constructor
  · rintro ⟨pc, hpc, hf⟩
    by_cases hbase : b.hasFile pc.1 = true
    · simp [hbase] at hf
    · rw [if_neg (by simp [hbase])] at hf
      by_cases hlast : lastApp ch j pc.1 == j
      · rw [if_pos hlast] at hf
        cases hf
        exact ⟨rfl, List.mem_map_of_mem Prod.fst hpc,
          Bool.of_not_eq_true hbase, by simpa using hlast⟩
      · rw [if_neg hlast] at hf
        cases hf
  · rintro ⟨rfl, hp, hbase, hlast⟩
    rcases List.mem_map.mp hp with ⟨pc, hpc, rfl⟩
    refine ⟨pc, hpc, ?_⟩
    rw [if_neg (by simp [hbase]), if_pos (by simp [hlast])]

theorem mem_passB (ch : List Version) (i : Nat) (p : String) (o : Nat) :
    (p, o) ∈ passB ch i ↔ ∃ j, 1 ≤ j ∧ j ≤ i ∧ (p, o) ∈ passBAt ch j := by
  rw [passB, List.mem_flatMap]
  constructor
  · rintro ⟨j, hj, hmem⟩
    rw [List.mem_reverse, List.mem_range'_1] at hj
    exact ⟨j, hj.1, by omega, hmem⟩
  · rintro ⟨j, h1, h2, hmem⟩
    refine ⟨j, ?_, hmem⟩
    rw [List.mem_reverse, List.mem_range'_1]
    omega

theorem mem_files (ch : List Version) (i : Nat) (p : String) (o : Nat) :
    (p, o) ∈ files ch i ↔ (p, o) ∈ passA ch ∨ (p, o) ∈ passB ch i := by
  rw [files, List.mem_append]

end Abundant

namespace Abundant

theorem countP_flatMap (f : Nat → List (String × Nat)) (q : String × Nat → Bool) :
    ∀ js : List Nat,
      (js.flatMap f).countP q = (js.map (fun j => (f j).countP q)).sum := by
  intro js
  induction js with
  | nil => rfl
  | cons j t ih => rw [List.flatMap_cons, List.countP_append, List.map_cons, List.sum_cons, ih]

theorem sum_map_indicator (L n : Nat) :
    ∀ js : List Nat, js.Nodup →
      (js.map (fun j => if j = L then n else 0)).sum = if L ∈ js then n else 0 := by
  intro js
  induction js with
  | nil => intro _; simp
  | cons j t ih =>
    intro hnd
    rw [List.map_cons, List.sum_cons, ih hnd.of_cons]
    by_cases hj : j = L
    · subst hj
      have : j ∉ t := (List.nodup_cons.mp hnd).1
      simp [this]
    · simp [hj, List.mem_cons, Ne.symm hj]

theorem countP_key_map (p : String) (g : String → Nat) (l : List (String × Content)) :
    (l.map (fun pc => (pc.1, g pc.1))).countP (fun e => e.1 == p)
      = (l.map Prod.fst).count p := by
  rw [List.countP_map, List.count, List.countP_map]
  rfl

theorem count_keys_nodup (p : String) (keys : List String) (hnd : keys.Nodup) :
    keys.count p = if p ∈ keys then 1 else 0 := by
  by_cases hp : p ∈ keys
  · rw [List.count_eq_one_of_mem hnd hp, if_pos hp]
  · rw [List.count_eq_zero_of_not_mem hp, if_neg hp]

theorem countP_passA (ch : List Version) (b : Version) (hb : ch[0]? = some b) (p : String) :
    (passA ch).countP (fun e => e.1 == p) = (b.store.map Prod.fst).count p := by
  rw [passA]
  simp only [hb]
  exact countP_key_map p (fun q => lastApp ch 0 q) b.store

theorem countP_filterMap_keyed (p : String) (g : String → Option (String × Nat))
    (hg : ∀ q r, g q = some r → r.1 = q) :
    ∀ l : List (String × Content),
      (l.filterMap (fun pc => g pc.1)).countP (fun e => e.1 == p)
        = if (g p).isSome then (l.map Prod.fst).count p else 0 := by
  intro l
  induction l with
  | nil => cases hgp : g p <;> simp [hgp]
  | cons pc t ih =>
    rw [List.filterMap_cons]
    cases hgp : g pc.1 with
    | none =>
      by_cases hp : pc.1 = p
      · rw [ih, List.map_cons, List.count_cons]
        rw [hp] at hgp
        simp [hgp, hp]
      · rw [ih, List.map_cons, List.count_cons]
        have : ¬ (pc.1 == p) = true := by simp [hp]
        simp [this]
    | some r =>
      have hr : r.1 = pc.1 := hg pc.1 r hgp
      rw [List.countP_cons, ih, List.map_cons, List.count_cons]
      by_cases hp : pc.1 = p
      · rw [hp] at hgp
        simp [hgp, hr, hp]
      · have h1 : ¬ (pc.1 == p) = true := by simp [hp]
        have h2 : ¬ (r.1 == p) = true := by simp [hr, hp]
        simp [h1, h2]

theorem countP_passBAt (ch : List Version) (v b : Version) (j : Nat)
    (hj : ch[j]? = some v) (hb : ch[0]? = some b) (p : String) :
    (passBAt ch j).countP (fun e => e.1 == p)
      = if b.hasFile p = false ∧ lastApp ch j p = j
        then (v.store.map Prod.fst).count p else 0 := by
  rw [passBAt]
  simp only [hj, hb]
  rw [countP_filterMap_keyed p
    (fun q => if b.hasFile q then none else if lastApp ch j q == j then some (q, j) else none)
    (by
      intro q r h
      dsimp only at h
      by_cases h1 : b.hasFile q = true
      · simp [h1] at h
      · rw [if_neg (by simp [h1])] at h
        by_cases h2 : (lastApp ch j q == j) = true
        · rw [if_pos h2] at h
          cases h
          rfl
        · rw [if_neg h2] at h
          cases h)]
  by_cases h1 : b.hasFile p = true
  · simp [h1]
  · by_cases h2 : lastApp ch j p = j
    · simp [h1, h2, Bool.of_not_eq_true h1]
    · have : ¬ (lastApp ch j p == j) = true := by simp [h2]
      simp [h1, this, h2, Bool.of_not_eq_true h1]

end Abundant

namespace Abundant

/-- C2, amended: for a path present in the base version, the effective
view of the version at position `i` yields exactly one entry for it,
and that entry's owner is the last version *in the entire chain* that
stores the path — which may lie strictly after `i`.  Only when no
version strictly newer than `i` stores the path is the owner the most
recent version in the closed range from the base to `i`, as the
original claim asserts for every case. -/
theorem files_base_path_resolution (b : Version) (rest : List Version) (i : Nat) (p : String)
    (hi : i < (b :: rest).length) (hp : b.hasFile p = true)
    (hnd : (b.store.map Prod.fst).Nodup) :
    ((files (b :: rest) i).countP (fun e => e.1 == p) = 1) ∧
    (∀ o, (p, o) ∈ files (b :: rest) i →
      o = lastApp (b :: rest) 0 p ∧ hasFileIdx (b :: rest) o p = true ∧
      ∀ k, o < k → k < (b :: rest).length → hasFileIdx (b :: rest) k p = false) ∧
    ((∀ k, i < k → k < (b :: rest).length → hasFileIdx (b :: rest) k p = false) →
      ∀ o, (p, o) ∈ files (b :: rest) i →
        o ≤ i ∧ hasFileIdx (b :: rest) o p = true ∧
        ∀ k, k ≤ i → hasFileIdx (b :: rest) k p = true → k ≤ o) := by
  have hb : (b :: rest)[0]? = some b := by simp
  have hpk : p ∈ List.map Prod.fst b.store := (hasFile_iff_mem_keys b p).mp hp
  have h0 : hasFileIdx (b :: rest) 0 p = true := by
    rw [hasFileIdx_cons_zero]
    exact hp
  have hBzero : ∀ o, ¬ (p, o) ∈ passB (b :: rest) i := by
    intro o hB
    rcases (mem_passB _ i p o).mp hB with ⟨j, h1, h2, hmem'⟩
    have hjlt : j < (b :: rest).length := by omega
    have hv := List.getElem?_eq_getElem hjlt
    rcases (mem_passBAt _ _ b j hv hb p o).mp hmem' with ⟨_, _, hbase, _⟩
    rw [hp] at hbase
    cases hbase
  refine ⟨?_, ?_, ?_⟩
  · rw [files, List.countP_append, countP_passA _ b hb p]
    have hA : (b.store.map Prod.fst).count p = 1 := by
      rw [count_keys_nodup p _ hnd, if_pos hpk]
    rw [hA, passB, countP_flatMap]
    rw [show (1 : Nat) = 1 + 0 from rfl]
    congr 1
    have hz : ∀ x ∈ (List.range' 1 i).reverse.map
        (fun j => (passBAt (b :: rest) j).countP (fun e => e.1 == p)), x = 0 := by
      intro x hx
      rcases List.mem_map.mp hx with ⟨j, hjmem, rfl⟩
      rw [List.mem_reverse, List.mem_range'_1] at hjmem
      have hjlt : j < (b :: rest).length := by omega
      have hv := List.getElem?_eq_getElem hjlt
      rw [countP_passBAt _ _ b j hv hb p, if_neg]
      intro hcond
      rw [hp] at hcond
      exact absurd hcond.1 (by simp)
    rw [List.sum_eq_zero hz]
  · intro o hmem
    rcases (mem_files _ i p o).mp hmem with hA | hB
    · rcases (mem_passA _ b hb p o).mp hA with ⟨_, rfl⟩
      rcases lastApp_spec _ 0 p h0 with ⟨_, _, hhas, hmax⟩
      exact ⟨rfl, hhas, hmax⟩
    · exact absurd hB (hBzero o)
  · intro hnone o hmem
    rcases (mem_files _ i p o).mp hmem with hA | hB
    · rcases (mem_passA _ b hb p o).mp hA with ⟨_, rfl⟩
      rcases lastApp_spec _ 0 p h0 with ⟨_, hlt, hhas, _⟩
      have hle : lastApp (b :: rest) 0 p ≤ i := by
        by_contra hgt
        have := hnone (lastApp (b :: rest) 0 p) (by omega) hlt
        rw [hhas] at this
        cases this
      exact ⟨hle, hhas, fun k _ hkh => lastApp_le _ 0 p h0 k (Nat.zero_le k) hkh⟩
    · exact absurd hB (hBzero o)

/-- Witness for `files_base_path_resolution`: base stores `a`, the
second version stores it again; queried at the newest version the view
has exactly one entry for `a`. -/
theorem files_base_path_resolution_witness :
    (files
      [{ uuid := 0, created := 0, isBase := true, store := [("a", [1])] },
       { uuid := 1, created := 1, isBase := false, store := [("a", [2])] }] 1).countP
      (fun e => e.1 == "a") = 1 :=
  (files_base_path_resolution
    { uuid := 0, created := 0, isBase := true, store := [("a", [1])] }
    [{ uuid := 1, created := 1, isBase := false, store := [("a", [2])] }] 1 "a"
    (by decide) (by decide) (by decide)).1

end Abundant

namespace Abundant

/-- C3, amended: for a path absent from the base, the effective view of
the version at position `i` has exactly one entry for it precisely when
the *last* version in the entire chain storing the path lies in the
half-open range from just after the base up to `i`; it has zero entries
otherwise.  In particular a path introduced at or before `i` but stored
again strictly after `i` gets zero entries (this is what the original
claim misses), and a path first introduced strictly after `i` gets zero
entries (as the original claim states). -/
theorem files_postbase_path_resolution (b : Version) (rest : List Version) (i : Nat)
    (p : String) (hi : i < (b :: rest).length) (hp : b.hasFile p = false)
    (hnd : ∀ v ∈ (b :: rest), (v.store.map Prod.fst).Nodup) :
    (files (b :: rest) i).countP (fun e => e.1 == p)
      = (match lastOcc? (b :: rest) p with
         | some L => if 1 ≤ L ∧ L ≤ i then 1 else 0
         | none => 0) := by
  have hb : (b :: rest)[0]? = some b := by simp
  have hA : (passA (b :: rest)).countP (fun e => e.1 == p) = 0 := by
    rw [countP_passA _ b hb p, count_keys_nodup p _ (hnd b (by simp)), if_neg]
    intro hmem
    have := (hasFile_iff_mem_keys b p).mpr hmem
    rw [hp] at this
    cases this
  rw [files, List.countP_append, hA, Nat.zero_add, passB, countP_flatMap]
  cases hL : lastOcc? (b :: rest) p with
  | none =>
    have hz : ∀ x ∈ (List.range' 1 i).reverse.map
        (fun j => (passBAt (b :: rest) j).countP (fun e => e.1 == p)), x = 0 := by
      intro x hx
      rcases List.mem_map.mp hx with ⟨j, hjmem, rfl⟩
      rw [List.mem_reverse, List.mem_range'_1] at hjmem
      have hjlt : j < (b :: rest).length := by omega
      have hv := List.getElem?_eq_getElem hjlt
      rw [countP_passBAt _ _ b j hv hb p]
      have hno : hasFileIdx (b :: rest) j p = false := lastOcc?_none_spec p _ hL j hjlt
      have hnk : p ∉ ((b :: rest)[j]).store.map Prod.fst := by
        intro hmem
        have := (hasFile_iff_mem_keys _ p).mpr hmem
        simp only [hasFileIdx, hv] at hno
        rw [hno] at this
        cases this
      rw [List.count_eq_zero_of_not_mem hnk, ite_self]
    rw [List.sum_eq_zero hz]
  | some L =>
    rcases lastOcc?_some_spec p _ L hL with ⟨hLlen, hLhas, hLmax⟩
    have hmapeq : (List.range' 1 i).reverse.map
          (fun j => (passBAt (b :: rest) j).countP (fun e => e.1 == p))
        = (List.range' 1 i).reverse.map (fun j => if j = L then 1 else 0) := by
      apply List.map_congr_left
      intro j hjmem
      rw [List.mem_reverse, List.mem_range'_1] at hjmem
      have hjlt : j < (b :: rest).length := by omega
      have hv := List.getElem?_eq_getElem hjlt
      rw [countP_passBAt _ _ b j hv hb p]
      by_cases hjh : hasFileIdx (b :: rest) j p = true
      · have hlast : lastApp (b :: rest) j p = L := lastApp_eq_lastOcc _ j p L hL hjh
        have hkeys : p ∈ ((b :: rest)[j]).store.map Prod.fst := by
          simp only [hasFileIdx, hv] at hjh
          exact (hasFile_iff_mem_keys _ p).mp hjh
        rw [count_keys_nodup p _ (hnd _ (List.getElem_mem hjlt)), if_pos hkeys]
        by_cases hjL : j = L
        · rw [if_pos hjL, if_pos ⟨hp, by rw [hlast, hjL]⟩]
        · rw [if_neg hjL, if_neg]
          intro hcond
          exact hjL (by rw [← hcond.2, hlast])
      · have hkeys : p ∉ ((b :: rest)[j]).store.map Prod.fst := by
          intro hmem
          have := (hasFile_iff_mem_keys _ p).mpr hmem
          simp only [hasFileIdx, hv] at hjh
          exact hjh this
        have hjL : ¬ j = L := by
          intro hje
          rw [hje, hLhas] at hjh
          exact hjh rfl
        rw [List.count_eq_zero_of_not_mem hkeys, ite_self, if_neg hjL]
    rw [hmapeq, sum_map_indicator L 1 _ (List.nodup_reverse.mpr (List.nodup_range' 1 i))]
    have hiff : (L ∈ (List.range' 1 i).reverse) ↔ (1 ≤ L ∧ L ≤ i) := by
      rw [List.mem_reverse, List.mem_range'_1]
      omega
    rw [if_congr hiff rfl rfl]

/-- Witness for `files_postbase_path_resolution`: `x` is introduced at
position 1 and never stored again; queried at position 2 the view has
exactly one entry for it. -/
theorem files_postbase_path_resolution_witness :
    (files
      [{ uuid := 0, created := 0, isBase := true, store := [] },
       { uuid := 1, created := 1, isBase := false, store := [("x", [1])] },
       { uuid := 2, created := 2, isBase := false, store := [] }] 2).countP
      (fun e => e.1 == "x")
      = (match lastOcc?
          [{ uuid := 0, created := 0, isBase := true, store := [] },
           { uuid := 1, created := 1, isBase := false, store := [("x", [1])] },
           { uuid := 2, created := 2, isBase := false, store := [] }] "x" with
         | some L => if 1 ≤ L ∧ L ≤ 2 then 1 else 0
         | none => 0) :=
  files_postbase_path_resolution
    { uuid := 0, created := 0, isBase := true, store := [] }
    [{ uuid := 1, created := 1, isBase := false, store := [("x", [1])] },
     { uuid := 2, created := 2, isBase := false, store := [] }] 2 "x"
    (by decide) (by decide) (by decide)

end Abundant

namespace Abundant

/-! Helpers about the chain produced by
`migrate_to_next_version` on the base. -/

theorem isSome_lookup_append (p : String) (l1 l2 : List (String × Content)) :
    (List.lookup p (l1 ++ l2)).isSome
      = ((List.lookup p l1).isSome || (List.lookup p l2).isSome) := by
  cases h1 : List.lookup p l1 with
  | some d => rw [lookup_append_some p l1 l2 d h1]; rfl
  | none => rw [lookup_append_none p l1 l2 h1]; rfl

theorem lookup_filter_not_hasFile_pos (p : String) (n : Version)
    (l : List (String × Content)) (hn : n.hasFile p = false) :
    List.lookup p (l.filter (fun pc => !(n.hasFile pc.1))) = List.lookup p l := by
  exact lookup_filter_key_pos p (fun s => !(n.hasFile s)) l (by simp [hn])

theorem lookup_filter_not_hasFile_neg (p : String) (n : Version)
    (l : List (String × Content)) (hn : n.hasFile p = true) :
    List.lookup p (l.filter (fun pc => !(n.hasFile pc.1))) = none := by
  exact lookup_filter_key_neg p (fun s => !(n.hasFile s)) l (by simp [hn])

theorem migrate_head_store (b n : Version) (rest : List Version) :
    migrateToNextVersion (b :: n :: rest)
      = { n with
          store := n.store ++ b.store.filter (fun pc => !(n.hasFile pc.1)),
          isBase := n.isBase || b.isBase } :: rest := rfl

theorem migrate_head_hasFile (b n : Version) (p : String) :
    Version.hasFile
        { n with
          store := n.store ++ b.store.filter (fun pc => !(n.hasFile pc.1)),
          isBase := n.isBase || b.isBase } p
      = (n.hasFile p || b.hasFile p) := by
  show (List.lookup p (n.store ++ b.store.filter (fun pc => !(n.hasFile pc.1)))).isSome
      = (n.hasFile p || b.hasFile p)
  rw [isSome_lookup_append]
  by_cases hn : n.hasFile p = true
  · rw [lookup_filter_not_hasFile_neg p n b.store hn]
    rw [show (List.lookup p n.store).isSome = n.hasFile p from rfl, hn]
    rfl
  · have hn2 : n.hasFile p = false := Bool.of_not_eq_true hn
    rw [lookup_filter_not_hasFile_pos p n b.store hn2]
    rw [show (List.lookup p n.store).isSome = n.hasFile p from rfl, hn2]
    rfl

theorem migrate_head_lookup_left (b n : Version) (p : String) (hn : n.hasFile p = true) :
    List.lookup p (n.store ++ b.store.filter (fun pc => !(n.hasFile pc.1)))
      = List.lookup p n.store := by
  have hsome : (List.lookup p n.store).isSome = true := hn
  cases h : List.lookup p n.store with
  | none => rw [h] at hsome; cases hsome
  | some d => exact lookup_append_some p _ _ d h

theorem migrate_head_lookup_right (b n : Version) (p : String) (hn : n.hasFile p = false) :
    List.lookup p (n.store ++ b.store.filter (fun pc => !(n.hasFile pc.1)))
      = List.lookup p b.store := by
  have hnone : List.lookup p n.store = none := by
    have hsome : (List.lookup p n.store).isSome = false := hn
    cases h : List.lookup p n.store with
    | none => rfl
    | some d => rw [h] at hsome; cases hsome
  rw [lookup_append_none p _ _ hnone, lookup_filter_not_hasFile_pos p n b.store hn]

theorem contentAt_cons_zero (x : Version) (l : List Version) (p : String) :
    contentAt (x :: l) 0 p = List.lookup p x.store := by
  simp [contentAt]

theorem contentAt_cons_succ (x : Version) (l : List Version) (m : Nat) (p : String) :
    contentAt (x :: l) (m + 1) p = contentAt l m p := by
  simp [contentAt]

theorem migrate_drop (b n : Version) (rest : List Version) (j : Nat) :
    (migrateToNextVersion (b :: n :: rest)).drop (j + 1) = (b :: n :: rest).drop (j + 2) := by
  rw [migrate_head_store]
  rw [List.drop_succ_cons, List.drop_succ_cons, List.drop_succ_cons]

theorem migrate_lastApp_shift (b n : Version) (rest : List Version) (j : Nat) (p : String) :
    lastApp (b :: n :: rest) (j + 2) p
      = lastApp (migrateToNextVersion (b :: n :: rest)) (j + 1) p + 1 := by
  rw [lastApp_eq, lastApp_eq, migrate_drop]
  cases hk : lastOcc? ((b :: n :: rest).drop (j + 2)) p with
  | none => rfl
  | some k =>
    show j + 2 + k = j + 1 + k + 1
    omega

theorem migrate_hasFileIdx_shift (b n : Version) (rest : List Version) (j : Nat) (p : String) :
    hasFileIdx (migrateToNextVersion (b :: n :: rest)) (j + 1) p
      = hasFileIdx (b :: n :: rest) (j + 2) p := by
  rw [migrate_head_store]
  rw [hasFileIdx_cons_succ]
  rw [hasFileIdx_cons_succ, hasFileIdx_cons_succ]

theorem migrate_contentAt_shift (b n : Version) (rest : List Version) (j : Nat) (p : String) :
    contentAt (migrateToNextVersion (b :: n :: rest)) (j + 1) p
      = contentAt (b :: n :: rest) (j + 2) p := by
  rw [migrate_head_store]
  rw [contentAt_cons_succ]
  rw [contentAt_cons_succ, contentAt_cons_succ]

theorem migrate_hasFileIdx_zero (b n : Version) (rest : List Version) (p : String) :
    hasFileIdx (migrateToNextVersion (b :: n :: rest)) 0 p = (n.hasFile p || b.hasFile p) := by
  rw [migrate_head_store, hasFileIdx_cons_zero, migrate_head_hasFile]

theorem migrate_contentAt_zero_left (b n : Version) (rest : List Version) (p : String)
    (hn : n.hasFile p = true) :
    contentAt (migrateToNextVersion (b :: n :: rest)) 0 p = contentAt (b :: n :: rest) 1 p := by
  rw [migrate_head_store, contentAt_cons_zero]
  show List.lookup p (n.store ++ b.store.filter (fun pc => !(n.hasFile pc.1)))
      = contentAt (b :: n :: rest) 1 p
  rw [migrate_head_lookup_left b n p hn, contentAt_cons_succ, contentAt_cons_zero]

theorem migrate_contentAt_zero_right (b n : Version) (rest : List Version) (p : String)
    (hn : n.hasFile p = false) :
    contentAt (migrateToNextVersion (b :: n :: rest)) 0 p = contentAt (b :: n :: rest) 0 p := by
  rw [migrate_head_store, contentAt_cons_zero]
  show List.lookup p (n.store ++ b.store.filter (fun pc => !(n.hasFile pc.1)))
      = contentAt (b :: n :: rest) 0 p
  rw [migrate_head_lookup_right b n p hn, contentAt_cons_zero]

end Abundant

namespace Abundant

theorem mem_passA_intro (ch : List Version) (p : String)
    (h : hasFileIdx ch 0 p = true) : (p, lastApp ch 0 p) ∈ passA ch := by
  cases hch : ch[0]? with
  | none =>
    simp only [hasFileIdx, hch] at h
    cases h
  | some x =>
    simp only [hasFileIdx, hch] at h
    exact (mem_passA ch x hch p _).mpr ⟨(hasFile_iff_mem_keys x p).mp h, rfl⟩

theorem mem_passA_elim (ch : List Version) (p : String) (o : Nat)
    (h : (p, o) ∈ passA ch) :
    hasFileIdx ch 0 p = true ∧ o = lastApp ch 0 p := by
  cases hch : ch[0]? with
  | none =>
    rw [passA] at h
    simp only [hch] at h
    cases h
  | some x =>
    rcases (mem_passA ch x hch p o).mp h with ⟨hk, ho⟩
    refine ⟨?_, ho⟩
    simp only [hasFileIdx, hch]
    exact (hasFile_iff_mem_keys x p).mpr hk

theorem mem_passBAt_intro (ch : List Version) (j : Nat) (p : String)
    (hj : hasFileIdx ch j p = true) (hb : hasFileIdx ch 0 p = false)
    (hl : lastApp ch j p = j) : (p, j) ∈ passBAt ch j := by
  have hjlt : j < ch.length := hasFileIdx_lt_length ch j p hj
  have h0lt : 0 < ch.length := by omega
  have hv := List.getElem?_eq_getElem hjlt
  have hv0 := List.getElem?_eq_getElem h0lt
  apply (mem_passBAt ch _ _ j hv hv0 p j).mpr
  simp only [hasFileIdx, hv] at hj
  simp only [hasFileIdx, hv0] at hb
  exact ⟨rfl, (hasFile_iff_mem_keys _ p).mp hj, hb, hl⟩

theorem mem_passBAt_elim (ch : List Version) (j : Nat) (p : String) (o : Nat)
    (h : (p, o) ∈ passBAt ch j) :
    o = j ∧ hasFileIdx ch j p = true ∧ hasFileIdx ch 0 p = false ∧ lastApp ch j p = j := by
  cases hv : ch[j]? with
  | none =>
    rw [passBAt] at h
    simp only [hv] at h
    cases h
  | some x =>
    cases hv0 : ch[0]? with
    | none =>
      rw [passBAt] at h
      simp only [hv, hv0] at h
      cases h
    | some y =>
      rcases (mem_passBAt ch x y j hv hv0 p o).mp h with ⟨ho, hk, hbf, hl⟩
      refine ⟨ho, ?_, ?_, hl⟩
      · simp only [hasFileIdx, hv]
        exact (hasFile_iff_mem_keys x p).mpr hk
      · simp only [hasFileIdx, hv0]
        exact hbf

theorem mem_files_of_passA (ch : List Version) (i : Nat) (p : String) (o : Nat)
    (h : (p, o) ∈ passA ch) : (p, o) ∈ files ch i := by
  rw [files, List.mem_append]
  exact Or.inl h

theorem mem_files_of_passBAt (ch : List Version) (i j : Nat) (p : String) (o : Nat)
    (h1 : 1 ≤ j) (h2 : j ≤ i) (h : (p, o) ∈ passBAt ch j) : (p, o) ∈ files ch i := by
  rw [files, List.mem_append]
  exact Or.inr ((mem_passB ch i p o).mpr ⟨j, h1, h2, h⟩)

theorem lastApp_eq_of (ch : List Version) (j : Nat) (p : String) (m : Nat)
    (h0 : hasFileIdx ch j p = true) (hm : j ≤ m) (hhas : hasFileIdx ch m p = true)
    (hmax : ∀ k, m < k → k < ch.length → hasFileIdx ch k p = false) :
    lastApp ch j p = m := by
  have h1 := lastApp_le ch j p h0 m hm hhas
  have h2 : lastApp ch j p ≤ m := by
    by_contra hgt
    have := hmax _ (by omega) (lastApp_spec ch j p h0).2.1
    rw [(lastApp_spec ch j p h0).2.2.1] at this
    cases this
  omega

theorem migrate_length (b n : Version) (rest : List Version) :
    (migrateToNextVersion (b :: n :: rest)).length = (b :: n :: rest).length - 1 := by
  rw [migrate_head_store]
  simp

end Abundant

namespace Abundant

/-- Conservation of the effective view under single-step migration of
the base: every entry resolvable at a surviving version (position `w+1`
before, position `w` after) is still resolvable to equal content. -/
theorem migrate_conservation (b n : Version) (rest : List Version) (w : Nat) (p : String)
    (o : Nat) (hmem : (p, o) ∈ files (b :: n :: rest) (w + 1)) :
    ∃ o2, (p, o2) ∈ files (migrateToNextVersion (b :: n :: rest)) w ∧
      contentAt (migrateToNextVersion (b :: n :: rest)) o2 p
        = contentAt (b :: n :: rest) o p := by
  have hlen : (b :: n :: rest).length = rest.length + 2 := by simp
  have hlen2 : (migrateToNextVersion (b :: n :: rest)).length = rest.length + 1 := by
    rw [migrate_length]
    simp
  rcases (mem_files _ _ p o).mp hmem with hA | hB
  · rcases mem_passA_elim _ p o hA with ⟨h0, ho⟩
    have hbp : b.hasFile p = true := by
      rw [hasFileIdx_cons_zero] at h0
      exact h0
    rcases lastApp_spec _ 0 p h0 with ⟨_, holt, hohas, homax⟩
    rw [← ho] at holt hohas homax
    have hch : hasFileIdx (migrateToNextVersion (b :: n :: rest)) 0 p = true := by
      rw [migrate_hasFileIdx_zero]
      simp [hbp]
    cases o with
    | zero =>
      have hn1 : n.hasFile p = false := by
        have := homax 1 (by omega) (by omega)
        rw [hasFileIdx_cons_succ, hasFileIdx_cons_zero] at this
        exact this
      have hl0 : lastApp (migrateToNextVersion (b :: n :: rest)) 0 p = 0 := by
        apply lastApp_eq_of _ 0 p 0 hch (Nat.le_refl 0) hch
        intro k hk hklen
        match k, hk with
        | k' + 1, _ =>
          rw [migrate_hasFileIdx_shift]
          exact homax (k' + 2) (by omega) (by omega)
      refine ⟨0, ?_, ?_⟩
      · have := mem_passA_intro (migrateToNextVersion (b :: n :: rest)) p hch
        rw [hl0] at this
        exact mem_files_of_passA _ w p 0 this
      · exact migrate_contentAt_zero_right b n rest p hn1
    | succ m =>
      have hm'has : hasFileIdx (migrateToNextVersion (b :: n :: rest)) m p = true := by
        cases m with
        | zero =>
          rw [migrate_hasFileIdx_zero]
          have : n.hasFile p = true := by
            rw [hasFileIdx_cons_succ, hasFileIdx_cons_zero] at hohas
            exact hohas
          simp [this]
        | succ m2 =>
          rw [migrate_hasFileIdx_shift]
          exact hohas
      have hmax' : ∀ k, m < k →
          k < (migrateToNextVersion (b :: n :: rest)).length →
          hasFileIdx (migrateToNextVersion (b :: n :: rest)) k p = false := by
        intro k hk hklen
        match k, hk with
        | k' + 1, _ =>
          rw [migrate_hasFileIdx_shift]
          exact homax (k' + 2) (by omega) (by omega)
      have hl0 : lastApp (migrateToNextVersion (b :: n :: rest)) 0 p = m :=
        lastApp_eq_of _ 0 p m hch (Nat.zero_le m) hm'has hmax'
      refine ⟨m, ?_, ?_⟩
      · have := mem_passA_intro (migrateToNextVersion (b :: n :: rest)) p hch
        rw [hl0] at this
        exact mem_files_of_passA _ w p m this
      · cases m with
        | zero =>
          have hn1 : n.hasFile p = true := by
            rw [hasFileIdx_cons_succ, hasFileIdx_cons_zero] at hohas
            exact hohas
          exact migrate_contentAt_zero_left b n rest p hn1
        | succ m2 =>
          exact migrate_contentAt_shift b n rest m2 p
  · rcases (mem_passB _ _ p o).mp hB with ⟨j, hj1, hj2, hmem'⟩
    rcases mem_passBAt_elim _ j p o hmem' with ⟨ho, hjhas, hb0f, hjlast⟩
    subst ho
    have hbp : b.hasFile p = false := by
      rw [hasFileIdx_cons_zero] at hb0f
      exact hb0f
    have homax : ∀ k, o < k → k < (b :: n :: rest).length →
        hasFileIdx (b :: n :: rest) k p = false := by
      have := (lastApp_spec _ o p hjhas).2.2.2
      rw [hjlast] at this
      exact this
    match o, hj1 with
    | 1, _ =>
      have hn1 : n.hasFile p = true := by
        rw [hasFileIdx_cons_succ, hasFileIdx_cons_zero] at hjhas
        exact hjhas
      have hch : hasFileIdx (migrateToNextVersion (b :: n :: rest)) 0 p = true := by
        rw [migrate_hasFileIdx_zero]
        simp [hn1]
      have hl0 : lastApp (migrateToNextVersion (b :: n :: rest)) 0 p = 0 := by
        apply lastApp_eq_of _ 0 p 0 hch (Nat.le_refl 0) hch
        intro k hk hklen
        match k, hk with
        | k' + 1, _ =>
          rw [migrate_hasFileIdx_shift]
          exact homax (k' + 2) (by omega) (by omega)
      refine ⟨0, ?_, ?_⟩
      · have := mem_passA_intro (migrateToNextVersion (b :: n :: rest)) p hch
        rw [hl0] at this
        exact mem_files_of_passA _ w p 0 this
      · exact migrate_contentAt_zero_left b n rest p hn1
    | j'' + 2, _ =>
      have hshift_has : hasFileIdx (migrateToNextVersion (b :: n :: rest)) (j'' + 1) p = true := by
        rw [migrate_hasFileIdx_shift]
        exact hjhas
      by_cases hn1 : n.hasFile p = true
      · have hch : hasFileIdx (migrateToNextVersion (b :: n :: rest)) 0 p = true := by
          rw [migrate_hasFileIdx_zero]
          simp [hn1]
        have hmax' : ∀ k, j'' + 1 < k →
            k < (migrateToNextVersion (b :: n :: rest)).length →
            hasFileIdx (migrateToNextVersion (b :: n :: rest)) k p = false := by
          intro k hk hklen
          match k, hk with
          | k' + 1, _ =>
            rw [migrate_hasFileIdx_shift]
            exact homax (k' + 2) (by omega) (by omega)
        have hl0 : lastApp (migrateToNextVersion (b :: n :: rest)) 0 p = j'' + 1 :=
          lastApp_eq_of _ 0 p (j'' + 1) hch (Nat.zero_le _) hshift_has hmax'
        refine ⟨j'' + 1, ?_, ?_⟩
        · have := mem_passA_intro (migrateToNextVersion (b :: n :: rest)) p hch
          rw [hl0] at this
          exact mem_files_of_passA _ w p (j'' + 1) this
        · exact migrate_contentAt_shift b n rest j'' p
      · have hn1f : n.hasFile p = false := Bool.of_not_eq_true hn1
        have hch0 : hasFileIdx (migrateToNextVersion (b :: n :: rest)) 0 p = false := by
          rw [migrate_hasFileIdx_zero, hn1f, hbp]
          rfl
        have hlshift : lastApp (migrateToNextVersion (b :: n :: rest)) (j'' + 1) p = j'' + 1 := by
          have := migrate_lastApp_shift b n rest j'' p
          rw [hjlast] at this
          omega
        refine ⟨j'' + 1, ?_, ?_⟩
        · apply mem_files_of_passBAt _ w (j'' + 1) p (j'' + 1) (by omega) (by omega)
          exact mem_passBAt_intro _ (j'' + 1) p hshift_has hch0 hlshift
        · exact migrate_contentAt_shift b n rest j'' p

end Abundant

namespace Abundant

/-- C5: single-step migration of the base `B` into its successor `N`
moves exactly the files of `B`'s exact view absent from `N`'s exact
view into `N` at the same relative paths (the new head stores precisely
`N`'s paths plus `B`'s, keeping `N`'s copy where `N` already stored the
path and receiving `B`'s bytes where it did not), transfers the base
flag to `N`, removes `B` (the chain shortens by one and every other
version is untouched), and preserves resolution: every path resolvable
at any surviving version before the migration resolves to equal content
at that version afterwards. -/
theorem migrate_step_spec (b n : Version) (rest : List Version) :
    (∀ p, hasFileIdx (migrateToNextVersion (b :: n :: rest)) 0 p
        = (n.hasFile p || b.hasFile p)) ∧
    (∀ p, n.hasFile p = true →
      contentAt (migrateToNextVersion (b :: n :: rest)) 0 p
        = contentAt (b :: n :: rest) 1 p) ∧
    (∀ p, n.hasFile p = false →
      contentAt (migrateToNextVersion (b :: n :: rest)) 0 p
        = contentAt (b :: n :: rest) 0 p) ∧
    (b.isBase = true → isBaseIdx (migrateToNextVersion (b :: n :: rest)) 0 = true) ∧
    ((migrateToNextVersion (b :: n :: rest)).length = (b :: n :: rest).length - 1) ∧
    (∀ j, (migrateToNextVersion (b :: n :: rest))[j + 1]? = (b :: n :: rest)[j + 2]?) ∧
    (∀ w p o, (p, o) ∈ files (b :: n :: rest) (w + 1) →
      ∃ o2, (p, o2) ∈ files (migrateToNextVersion (b :: n :: rest)) w ∧
        contentAt (migrateToNextVersion (b :: n :: rest)) o2 p
          = contentAt (b :: n :: rest) o p) := by
  refine ⟨?_, ?_, ?_, ?_, ?_, ?_, ?_⟩
  · intro p
    exact migrate_hasFileIdx_zero b n rest p
  · intro p hn
    exact migrate_contentAt_zero_left b n rest p hn
  · intro p hn
    exact migrate_contentAt_zero_right b n rest p hn
  · intro hbase
    rw [migrate_head_store]
    simp [isBaseIdx, hbase]
  · exact migrate_length b n rest
  · intro j
    rw [migrate_head_store]
    simp
  · intro w p o hmem
    exact migrate_conservation b n rest w p o hmem

end Abundant

namespace Abundant

/-- Witness for `migrate_step_spec`: migrating the two-version chain
whose base stores `a` transfers the base flag and keeps `a` resolvable
with the base's bytes. -/
theorem migrate_step_spec_witness :
    isBaseIdx
      (migrateToNextVersion
        [{ uuid := 0, created := 0, isBase := true, store := [("a", [1])] },
         { uuid := 1, created := 1, isBase := false, store := [("b", [2])] }]) 0 = true ∧
    contentAt
      (migrateToNextVersion
        [{ uuid := 0, created := 0, isBase := true, store := [("a", [1])] },
         { uuid := 1, created := 1, isBase := false, store := [("b", [2])] }]) 0 "a"
      = contentAt
        [{ uuid := 0, created := 0, isBase := true, store := [("a", [1])] },
         { uuid := 1, created := 1, isBase := false, store := [("b", [2])] }] 0 "a" :=
  ⟨(migrate_step_spec
      { uuid := 0, created := 0, isBase := true, store := [("a", [1])] }
      { uuid := 1, created := 1, isBase := false, store := [("b", [2])] } []).2.2.2.1 rfl,
   (migrate_step_spec
      { uuid := 0, created := 0, isBase := true, store := [("a", [1])] }
      { uuid := 1, created := 1, isBase := false, store := [("b", [2])] } []).2.2.1 "a" rfl⟩

end Abundant

namespace Abundant

/-! The chain invariant (C1): preservation through every archive
operation. -/

theorem insertByCreated_of_le (v : Version) (l : List Version)
    (h : ∀ w ∈ l, v.created ≤ w.created) : insertByCreated v l = v :: l := by
  cases l with
  | nil => rfl
  | cons w ws =>
    rw [insertByCreated, if_pos (h w (by simp))]

theorem sortByCreated_eq_self :
    ∀ l : List Version, List.Pairwise (fun a b => a.created ≤ b.created) l →
      sortByCreated l = l := by
  intro l
  induction l with
  | nil => intro _; rfl
  | cons v rest ih =>
    intro h
    rcases List.pairwise_cons.mp h with ⟨hhead, htail⟩
    rw [sortByCreated, ih htail, insertByCreated_of_le v rest hhead]

theorem sortByCreated_eq_self_of_lt (l : List Version)
    (h : List.Pairwise (fun a b => a.created < b.created) l) :
    sortByCreated l = l :=
  sortByCreated_eq_self l (h.imp (fun hab => Nat.le_of_lt hab))

theorem findIdx_concat_fresh (newv : Version) :
    ∀ vs : List Version, (∀ v ∈ vs, (v.uuid == newv.uuid) = false) →
      (vs ++ [newv]).findIdx (fun v => v.uuid == newv.uuid) = vs.length := by
  intro vs
  induction vs with
  | nil => intro _; simp [List.findIdx_cons]
  | cons v rest ih =>
    intro h
    rw [List.cons_append, List.findIdx_cons, h v (by simp)]
    simp only [cond_false]
    rw [ih (fun w hw => h w (by simp [hw]))]
    simp

theorem set_concat_length (a b : Version) :
    ∀ (l : List Version), (l ++ [a]).set l.length b = l ++ [b] := by
  intro l
  induction l with
  | nil => rfl
  | cons x xs ih => simp [List.set_cons_succ, ih]

end Abundant

namespace Abundant

theorem createVersionRecord_eq (isBase : Bool) (hash : Content → Nat)
    (src : List (String × Content)) (st : ArchState) (h : WF st) :
    createVersionRecord isBase hash src st =
      { st with
        versions := st.versions ++
          [{ uuid := st.nextUuid, created := st.clock, isBase := isBase,
             store := copyFiles
               (st.versions ++
                 [{ uuid := st.nextUuid, created := st.clock, isBase := isBase, store := [] }])
               st.versions.length hash src }],
        clock := st.clock + 1, nextUuid := st.nextUuid + 1 } := by
  obtain ⟨hflags, hsorted, hclock, huuid⟩ := h
  have hsort : sortByCreated
      (st.versions ++
        [{ uuid := st.nextUuid, created := st.clock, isBase := isBase, store := [] }])
      = st.versions ++
        [{ uuid := st.nextUuid, created := st.clock, isBase := isBase, store := [] }] := by
    apply sortByCreated_eq_self
    rw [List.pairwise_append]
    refine ⟨hsorted.imp (fun hab => Nat.le_of_lt hab), by simp, ?_⟩
    intro a ha bb hbb
    rw [List.mem_singleton] at hbb
    subst hbb
    exact Nat.le_of_lt (hclock a ha)
  have hidx := findIdx_concat_fresh ⟨st.nextUuid, st.clock, isBase, []⟩ st.versions (by
    intro v hv
    have := huuid v hv
    simp only [beq_eq_false_iff_ne, ne_eq]
    omega)
  rw [createVersionRecord]
  simp only [hsort, hidx, List.getElem?_concat_length, set_concat_length]

theorem createVersionRecord_WF (hash : Content → Nat) (src : List (String × Content))
    (st : ArchState) (h : WF st) : WF (createVersionRecord false hash src st) := by
  rw [createVersionRecord_eq false hash src st h]
  obtain ⟨hflags, hsorted, hclock, huuid⟩ := h
  refine ⟨?_, ?_, ?_, ?_⟩
  · cases hv : st.versions with
    | nil => rw [hv] at hflags; cases hflags
    | cons x tail =>
      rw [hv] at hflags
      rw [List.cons_append]
      refine ⟨hflags.1, ?_⟩
      intro v hv2
      rw [List.mem_append] at hv2
      rcases hv2 with hv2 | hv2
      · exact hflags.2 v hv2
      · rw [List.mem_singleton] at hv2
        subst hv2
        rfl
  · rw [List.pairwise_append]
    refine ⟨hsorted, by simp, ?_⟩
    intro a ha bb hbb
    rw [List.mem_singleton] at hbb
    subst hbb
    exact hclock a ha
  · intro v hv
    rw [List.mem_append] at hv
    rcases hv with hv | hv
    · exact Nat.lt_succ_of_lt (hclock v hv)
    · rw [List.mem_singleton] at hv
      subst hv
      exact Nat.lt_succ_self _
  · intro v hv
    rw [List.mem_append] at hv
    rcases hv with hv | hv
    · exact Nat.lt_succ_of_lt (huuid v hv)
    · rw [List.mem_singleton] at hv
      subst hv
      exact Nat.lt_succ_self _

theorem migrate_chain_WF (st : ArchState) (b n : Version) (rest : List Version)
    (hv : st.versions = b :: n :: rest) (h : WF st) :
    sortByCreated (migrateToNextVersion st.versions)
      = { n with
          store := n.store ++ b.store.filter (fun pc => !(n.hasFile pc.1)),
          isBase := n.isBase || b.isBase } :: rest ∧
    WF { st with versions := sortByCreated (migrateToNextVersion st.versions) } := by
  obtain ⟨hflags, hsorted, hclock, huuid⟩ := h
  rw [hv] at hflags hsorted
  rw [hv, migrate_head_store]
  have hpair : List.Pairwise (fun a b => a.created < b.created)
      ({ n with
         store := n.store ++ b.store.filter (fun pc => !(n.hasFile pc.1)),
         isBase := n.isBase || b.isBase } :: rest) := by
    rw [List.pairwise_cons]
    rcases List.pairwise_cons.mp hsorted with ⟨_, hsorted2⟩
    rcases List.pairwise_cons.mp hsorted2 with ⟨hn, hrest⟩
    exact ⟨hn, hrest⟩
  have hsorteq := sortByCreated_eq_self_of_lt _ hpair
  refine ⟨hsorteq, ?_, ?_, ?_, ?_⟩
  · rw [hsorteq]
    refine ⟨?_, ?_⟩
    · show (n.isBase || b.isBase) = true
      rw [hflags.1]
      simp
    · intro v hv2
      exact hflags.2 v (by simp [hv2])
  · rw [hsorteq]
    exact hpair
  · rw [hsorteq]
    intro v hv2
    rcases List.mem_cons.mp hv2 with hv2 | hv2
    · subst hv2
      exact hclock n (by rw [hv]; simp)
    · exact hclock v (by rw [hv]; simp [hv2])
  · rw [hsorteq]
    intro v hv2
    rcases List.mem_cons.mp hv2 with hv2 | hv2
    · subst hv2
      exact huuid n (by rw [hv]; simp)
    · exact huuid v (by rw [hv]; simp [hv2])

end Abundant

namespace Abundant

theorem removeVersion_WF (st st' : ArchState) (i : Nat) (h : WF st)
    (hok : removeVersion st i false = Except.ok st') : WF st' := by
  obtain ⟨hflags, hsorted, hclock, huuid⟩ := h
  rw [removeVersion] at hok
  cases hvi : st.versions[i]? with
  | none =>
    simp only [hvi] at hok
    cases hok
  | some v =>
    simp only [hvi, Bool.not_false, Bool.true_and] at hok
    by_cases hbase : v.isBase = true
    · rw [if_pos hbase] at hok
      cases hok
    · rw [if_neg hbase] at hok
      cases hok
      cases hvv : st.versions with
      | nil =>
        rw [hvv] at hvi
        simp at hvi
      | cons x tail =>
        rw [hvv] at hflags hsorted hclock huuid hvi
        cases i with
        | zero =>
          simp at hvi
          rw [← hvi] at hbase
          exact absurd hflags.1 hbase
        | succ i2 =>
          rw [List.eraseIdx_cons_succ]
          have hsub : (x :: tail.eraseIdx i2).Sublist (x :: tail) :=
            List.Sublist.cons₂ x (List.eraseIdx_sublist tail i2)
          have hpair : List.Pairwise (fun a b => a.created < b.created)
              (x :: tail.eraseIdx i2) :=
            List.Pairwise.sublist hsub hsorted
          rw [sortByCreated_eq_self_of_lt _ hpair]
          refine ⟨⟨hflags.1, ?_⟩, hpair, ?_, ?_⟩
          · intro v2 hv2
            exact hflags.2 v2 ((List.eraseIdx_sublist tail i2).subset hv2)
          · intro v2 hv2
            exact hclock v2 (hsub.subset hv2)
          · intro v2 hv2
            exact huuid v2 (hsub.subset hv2)

theorem migrateOldest_WF (st st' : ArchState) (h : WF st)
    (hok : migrateOldestVersionToBase st = Except.ok st') : WF st' := by
  cases hvv : st.versions with
  | nil =>
    rw [migrateOldestVersionToBase] at hok
    simp only [hvv] at hok
    cases hok
  | cons b tail =>
    cases tail with
    | nil =>
      rw [migrateOldestVersionToBase] at hok
      simp only [hvv] at hok
      cases hok
      exact h
    | cons n rest =>
      rw [migrateOldestVersionToBase] at hok
      simp only [hvv] at hok
      cases hok
      have := (migrate_chain_WF st b n rest hvv h).2
      rw [hvv] at this
      exact this

theorem migrateLoop_WF_fuel :
    ∀ (fuel : Nat) (st st' : ArchState), st.versions.length ≤ fuel → WF st →
      migrateLoop st = Except.ok st' → WF st' := by
  intro fuel
  induction fuel with
  | zero =>
    intro st st' hlen h _
    obtain ⟨hflags, _, _, _⟩ := h
    cases hvv : st.versions with
    | nil => rw [hvv] at hflags; cases hflags
    | cons x tail => rw [hvv] at hlen; simp at hlen
  | succ f ih =>
    intro st st' hlen h hok
    rw [migrateLoop] at hok
    by_cases hguard : st.maxVersions ≤ st.versions.length
    · rw [if_pos hguard] at hok
      cases hvv : st.versions with
      | nil =>
        obtain ⟨hflags, _, _, _⟩ := h
        rw [hvv] at hflags
        cases hflags
      | cons b tail =>
        cases tail with
        | nil =>
          rw [hvv] at hok
          cases hok
        | cons n rest =>
          rcases migrate_chain_WF st b n rest hvv h with ⟨heq, hwf⟩
          have hok2 : migrateLoop
              { st with versions := sortByCreated (migrateToNextVersion st.versions) }
              = Except.ok st' := by
            rw [hvv] at hok ⊢
            exact hok
          apply ih _ st' _ hwf hok2
          rw [heq]
          rw [hvv] at hlen
          simp at hlen ⊢
          omega
    · rw [if_neg hguard] at hok
      cases hok
      exact h

theorem archiveCreateVersion_WF (hash : Content → Nat) (src : List (String × Content))
    (st st' : ArchState) (h : WF st)
    (hok : archiveCreateVersion hash src st = Except.ok st') : WF st' := by
  rw [archiveCreateVersion] at hok
  by_cases hmax : (st.maxVersions == 1) = true
  · rw [if_pos hmax] at hok
    cases hvv : st.versions with
    | nil =>
      obtain ⟨hflags, _, _, _⟩ := h
      rw [hvv] at hflags
      cases hflags
    | cons x tail =>
      simp only [hvv] at hok
      have hbase : x.isBase = true := by
        obtain ⟨hflags, _, _, _⟩ := h
        rw [hvv] at hflags
        exact hflags.1
      have hrm : removeVersion st 0 false = Except.error Err.permissionError := by
        rw [removeVersion]
        have h0 : st.versions[0]? = some x := by
          rw [hvv]
          simp
        simp [h0, hbase]
      simp only [hrm] at hok
      cases hok
  · rw [if_neg hmax] at hok
    cases hloop : migrateLoop st with
    | error e =>
      simp only [hloop] at hok
      cases hok
    | ok st1 =>
      simp only [hloop] at hok
      have hwf1 : WF st1 :=
        migrateLoop_WF_fuel st.versions.length st st1 (Nat.le_refl _) h hloop
      cases hvv : st1.versions with
      | nil =>
        obtain ⟨hflags, _, _, _⟩ := hwf1
        rw [hvv] at hflags
        cases hflags
      | cons x tail =>
        simp only [hvv] at hok
        cases hok
        exact createVersionRecord_WF hash src st1 hwf1

theorem applyOp_WF (hash : Content → Nat) (st : ArchState) (op : Op) (h : WF st) :
    WF (applyOp hash st op) := by
  cases op with
  | createVersion src =>
    rw [applyOp]
    cases hc : archiveCreateVersion hash src st with
    | ok st' => exact archiveCreateVersion_WF hash src st st' h hc
    | error e => exact h
  | removeVersion i =>
    rw [applyOp]
    cases hc : removeVersion st i false with
    | ok st' => exact removeVersion_WF st st' i h hc
    | error e => exact h
  | migrateOldest =>
    rw [applyOp]
    cases hc : migrateOldestVersionToBase st with
    | ok st' => exact migrateOldest_WF st st' h hc
    | error e => exact h

theorem runOps_WF (hash : Content → Nat) :
    ∀ (ops : List Op) (st : ArchState), WF st → WF (runOps hash st ops) := by
  intro ops
  induction ops with
  | nil => intro st h; exact h
  | cons op rest ih =>
    intro st h
    rw [runOps, List.foldl_cons]
    exact ih (applyOp hash st op) (applyOp_WF hash st op h)

theorem WF_unique_base (st : ArchState) (h : WF st) :
    st.versions.countP (fun v => v.isBase) = 1 ∧
    (∀ v ∈ st.versions, v.isBase = true →
      ∀ w ∈ st.versions, v.created ≤ w.created) := by
  obtain ⟨hflags, hsorted, _, _⟩ := h
  cases hvv : st.versions with
  | nil => rw [hvv] at hflags; cases hflags
  | cons x tail =>
    rw [hvv] at hflags hsorted
    constructor
    · rw [List.countP_cons, if_pos (by simp [hflags.1])]
      rw [List.countP_eq_zero.mpr]
      intro v hv
      simp [hflags.2 v hv]
    · intro v hv hvbase w hw
      have hvx : v = x := by
        rcases List.mem_cons.mp hv with hveq | hvtail
        · exact hveq
        · rw [hflags.2 v hvtail] at hvbase
          cases hvbase
      subst hvx
      rcases List.mem_cons.mp hw with hweq | hwtail
      · subst hweq
        exact Nat.le_refl _
      · exact Nat.le_of_lt (List.rel_of_pairwise_cons hsorted hwtail)

end Abundant

namespace Abundant

/-- C1: starting from a freshly created archive holding a single base
version, any sequence of version-creation, version-removal and
migration operations leaves the chain with exactly one version flagged
as base, and that version is the chronologically oldest by creation
timestamp. -/
theorem chain_base_invariant (hash : Content → Nat) (maxVersions t0 u0 : Nat)
    (store0 : List (String × Content)) (ops : List Op) :
    (runOps hash (initArchive maxVersions t0 u0 store0) ops).versions.countP
        (fun v => v.isBase) = 1 ∧
    (∀ v ∈ (runOps hash (initArchive maxVersions t0 u0 store0) ops).versions,
      v.isBase = true →
      ∀ w ∈ (runOps hash (initArchive maxVersions t0 u0 store0) ops).versions,
        v.created ≤ w.created) := by
  have hinit : WF (initArchive maxVersions t0 u0 store0) := by
    refine ⟨⟨rfl, ?_⟩, ?_, ?_, ?_⟩
    · intro v hv
      cases hv
    · exact List.pairwise_singleton _ _
    · intro v hv
      rw [show (initArchive maxVersions t0 u0 store0).versions
          = [{ uuid := u0, created := t0, isBase := true, store := store0 }] from rfl,
        List.mem_singleton] at hv
      subst hv
      exact Nat.lt_succ_self t0
    · intro v hv
      rw [show (initArchive maxVersions t0 u0 store0).versions
          = [{ uuid := u0, created := t0, isBase := true, store := store0 }] from rfl,
        List.mem_singleton] at hv
      subst hv
      exact Nat.lt_succ_self u0
  exact WF_unique_base _ (runOps_WF hash ops (initArchive maxVersions t0 u0 store0) hinit)

end Abundant
